import Mathlib

/-!
Verification of the book-summarizer backend (three JS source files:
`src/unnamed/part_000` containing two server variants, and
`src/backend/server.js`).

The development shallowly embeds the request-handling core:
* the Levenshtein-based string similarity scorer (`levenshtein`, `similarityScore`),
* the Google-Books candidate matcher (`findBestBook`),
* the naive sentence splitters (`splitSentences`, `splitIntoSentences`),
* the JSON-extraction helper (`extractJSON`), parameterised by the external
  `JSON.parse` behaviour,
* the `/api/summary` request handlers of the fuzzy-matching variant
  (`handleSummary`) and of the `server.js` variant (`handleSummaryV2`),
  including the parse-retry loop and the sentence-count reconciliation loop.

External collaborators (the OpenAI generation service, the Google Books
catalog, and the builtin `JSON.parse`) are modelled as oracles passed to the
embedded functions: the generator is a map from call index to the returned
output text, the catalog result is the (optional) item list the fetch
produced, and `JSON.parse` is an arbitrary function from strings to an
optional JSON value (`none` models a parse exception).  JavaScript numbers
are modelled as exact rationals, and `.length`/`trim`/`\s` are modelled at
the character level.
-/

namespace BookSum

/-- JavaScript whitespace (the core code points matched by `\s` and
removed by `String.prototype.trim`). -/
def isWs (c : Char) : Bool :=
  c = ' ' || c = '\t' || c = '\n' || c = '\r' || c = '\x0b' || c = '\x0c'

/-- Drop leading and trailing whitespace from a character list,
as `String.prototype.trim` does. -/
def trimChars (l : List Char) : List Char :=
  (l.dropWhile isWs).rdropWhile isWs

/-- JavaScript `s.trim()`. -/
def jsTrim (s : String) : String :=
  String.mk (trimChars s.data)

/-- JavaScript `c.toLowerCase()` on a single character, as used by the
Levenshtein cost function. -/
def jsLower (c : Char) : Char := c.toLower

/-- One step of the edit-distance recurrence, for a fixed first character
`x` of the remaining first string: given `fxs j = lev xs ·`, computes
`lev (x :: xs) ·`.  The three arguments of `min` are, in the source's
order, `dp[i-1][j] + 1`, `dp[i][j-1] + 1` and `dp[i-1][j-1] + cost`. -/
def levAux (x : Char) (fxs : List Char → ℕ) : List Char → ℕ
  | [] => fxs [] + 1
  | y :: ys =>
    min (fxs (y :: ys) + 1)
      (min (levAux x fxs ys + 1)
        (fxs ys + (if jsLower x = jsLower y then 0 else 1)))

/-- Case-insensitive Levenshtein distance between two character lists.
`src/unnamed/part_000` (`levenshtein`, lines 130-143) fills the standard
dynamic-programming table with
`dp[i][j] = min(dp[i-1][j] + 1, dp[i][j-1] + 1, dp[i-1][j-1] + cost)` and
cost `0` iff the two characters agree after `toLowerCase`; this definition
is that same recurrence written recursively (the base rows/columns
`dp[i][0] = i`, `dp[0][j] = j` are the list-length base cases; note
`lev (x :: xs) [] = lev xs [] + 1`, which unfolds to `xs.length + 1`). -/
def lev : List Char → List Char → ℕ
  | [] => fun b => b.length
  | x :: xs => levAux x (lev xs)

/-- `levenshtein(a, b)` from `src/unnamed/part_000` lines 130-143: the
guard `if (!a || !b) return Math.max(a?.length || 0, b?.length || 0)`
fires when either string is empty, otherwise the DP table is computed. -/
def levenshtein (a b : String) : ℕ :=
  if a = "" ∨ b = "" then max a.length b.length
  else lev a.data b.data

/-- `similarityScore(a, b)` from `src/unnamed/part_000` lines 144-150:
`if (!a || !b) return 0`, else `1 - dist / maxLen` (with a `maxLen === 0`
branch returning 1, unreachable because of the first guard). -/
def similarityScore (a b : String) : ℚ :=
  if a = "" ∨ b = "" then 0
  else
    let dist := levenshtein a b
    let maxLen := max a.length b.length
    if maxLen = 0 then 1
    else 1 - (dist : ℚ) / (maxLen : ℚ)

/-! ### Catalog matcher (`findBestBook`, claim C1) -/

/-- One Google Books search result as consumed by `findBestBook`
(`src/unnamed/part_000` lines 164-173): `it.id` plus the fields of
`it.volumeInfo || {}`, each possibly absent. -/
structure VolumeItem where
  id : String := ""
  title : Option String := none
  authors : Option (List String) := none
  description : Option String := none
deriving DecidableEq, Repr

/-- A candidate built from one search result:
`{id, title: (info.title || "").trim(), authors: (info.authors || []).join(", "),
description: info.description || ""}`. -/
structure Candidate where
  id : String
  title : String
  authors : String
  description : String
deriving DecidableEq, Repr

/-- `data.items.map(it => ...)` from `findBestBook`. -/
def mkCandidates (items : List VolumeItem) : List Candidate :=
  items.map (fun it =>
    { id := it.id
      title := jsTrim (it.title.getD "")
      authors := String.intercalate ", " (it.authors.getD [])
      description := it.description.getD "" })

/-- The score attached to a candidate:
`Math.max(similarityScore(titleQuery, c.title), scoreAuthor)` with
`scoreAuthor = 0`. -/
def scoreOf (q : String) (c : Candidate) : ℚ :=
  max (similarityScore q c.title) 0

/-- First element attaining the maximum `.2` (score) component: the head of
a stable descending sort.  Earlier elements win ties. -/
def pickTop : List (Candidate × ℚ) → Option (Candidate × ℚ)
  | [] => none
  | a :: l =>
    match pickTop l with
    | none => some a
    | some m => if m.2 ≤ a.2 then some a else some m

/-- `findBestBook(titleQuery)` from `src/unnamed/part_000` lines 156-194,
with the two external effects abstracted: `res = none` models a failed
fetch / JSON decode or a response without `items` (the `catch` and the
`!data.items` guard both return `null`), `res = some items` a successful
search.  The body builds candidates, scores them, sorts the scored list
descending by score (`scored.sort((a,b) => b.score - a.score)`, a stable
sort), and accepts the top candidate iff its score is `>= 0.45`. -/
def findBestBook (titleQuery : String) (res : Option (List VolumeItem)) :
    Option Candidate :=
  match res with
  | none => none
  | some items =>
    if items.isEmpty then none
    else
      let candidates := mkCandidates items
      let scored := candidates.map (fun c => (c, scoreOf titleQuery c))
      let sorted := scored.insertionSort (fun x y => y.2 ≤ x.2)
      match sorted.head? with
      | some top => if (45 : ℚ) / 100 ≤ top.2 then some top.1 else none
      | none => none


/-! ### JSON values, `extractJSON`, and the fuzzy-variant handler -/

/-- A parsed JSON value: the possible non-exceptional results of the
builtin `JSON.parse`. -/
inductive JsonValue where
  | null : JsonValue
  | bool (b : Bool) : JsonValue
  | num (q : ℚ) : JsonValue
  | str (s : String) : JsonValue
  | arr (xs : List JsonValue) : JsonValue
  | obj (fields : List (String × JsonValue)) : JsonValue

/-- JavaScript truthiness of a parsed JSON value (`NaN` cannot arise from
`JSON.parse`). -/
def jsTruthy : JsonValue → Bool
  | .null => false
  | .bool b => b
  | .num q => decide (q ≠ 0)
  | .str s => decide (s ≠ "")
  | .arr _ => true
  | .obj _ => true

/-- `typeof v === "object"` for a parsed JSON value: `null`, arrays and
objects all have `typeof` `"object"` in JavaScript. -/
def typeofObject : JsonValue → Bool
  | .null => true
  | .arr _ => true
  | .obj _ => true
  | _ => false

/-- Property access `v.key`: `none` models `undefined` (non-objects and
missing keys). -/
def getField : JsonValue → String → Option JsonValue
  | .obj fields, key => fields.lookup key
  | _, _ => none

/-- JavaScript `a || b` where `a` is a possibly-absent property value. -/
def jsOr (a : Option JsonValue) (b : JsonValue) : JsonValue :=
  match a with
  | some v => if jsTruthy v then v else b
  | none => b

/-- `lastIndexOf c` on a character list. -/
def lastIdxOf (c : Char) (l : List Char) : Option ℕ :=
  match l.reverse.findIdx? (fun d => d = c) with
  | some r => some (l.length - 1 - r)
  | none => none

/-- `extractJSON(text)` from `src/unnamed/part_000` lines 106-125,
parameterised by the external `JSON.parse` (`parse s = none` models a parse
exception): `if (!text) return null`, then a direct parse attempt, then a
parse of the first-curly-open to last-curly-close substring
(the characters `\x7b` and `\x7d`), else `null`. -/
def extractJSON (parse : String → Option JsonValue) (text : String) :
    Option JsonValue :=
  if text = "" then none
  else
    match parse text with
    | some v => some v
    | none =>
      match text.data.findIdx? (fun c => c = '\x7b'), lastIdxOf '\x7d' text.data with
      | some s, some e =>
        if s < e then parse (String.mk ((text.data.drop s).take (e + 1 - s)))
        else none
      | _, _ => none

/-- Request body of the fuzzy variant's `POST /api/summary`
(`{title, style, num}`): `title`/`style` absent-or-string, `num` as the
result of `parseInt(req.body.num, 10)` with `none` modelling `NaN`. -/
structure ReqBody where
  title : Option String := none
  style : Option String := none
  num : Option Int := none

/-- `let num = parseInt(req.body.num, 10) || 5; if (num < 1) num = 1;
if (num > 70) num = 70;` — note `parseInt` returning `0` is falsy and also
falls back to 5. -/
def clampNum (numRaw : Option Int) : Int :=
  let n : Int :=
    match numRaw with
    | none => 5
    | some k => if k = 0 then 5 else k
  let n1 : Int := if n < 1 then 1 else n
  if n1 > 70 then 70 else n1

/-- A response JSON body: each field is `none` when the corresponding key
is absent from the object passed to `res.json`. -/
structure JsonResp where
  error : Option String := none
  found : Option Bool := none
  correctedTitle : Option JsonValue := none
  intro : Option JsonValue := none
  summary : Option String := none

/-- The parse-retry loop's continuation test:
`!(!parsed || typeof parsed !== "object")`. -/
def truthyObject : Option JsonValue → Bool
  | some v => jsTruthy v && typeofObject v
  | none => false

/-- The re-prompt loop of `src/unnamed/part_000` lines 286-299:
`while ((!parsed || typeof parsed !== "object") && tries < 2) { tries++;
raw = await callModelForJSON(...); parsed = extractJSON(raw); }`.
`fuel` is the remaining budget `2 - tries`; `k` is the index of the next
generation call (the count of generation calls made so far). -/
def fixLoop (gen : ℕ → String) (parse : String → Option JsonValue) :
    ℕ → Option JsonValue → ℕ → Option JsonValue × ℕ
  | k, parsed, 0 => (parsed, k)
  | k, parsed, fuel + 1 =>
    if truthyObject parsed then (parsed, k)
    else fixLoop gen parse (k + 1) (extractJSON parse (gen k)) fuel

/-- The initial structured-output request: one generation call, then the
re-prompt loop with budget 2.  Returns the final `parsed` value and the
total number of generation calls made. -/
def initialStage (gen : ℕ → String) (parse : String → Option JsonValue) :
    Option JsonValue × ℕ :=
  fixLoop gen parse 1 (extractJSON parse (gen 0)) 2

/-- `s.trim()` on an arbitrary JSON array element: calling `.trim()` on a
non-string throws a `TypeError` (caught by the route's outer `catch`). -/
def jsTrimVal : JsonValue → Except Unit String
  | .str s => .ok (jsTrim s)
  | _ => .error ()

/-- `parsed.exists === false`. -/
def existsFalse (v : JsonValue) : Bool :=
  match getField v "exists" with
  | some (.bool false) => true
  | _ => false

/-- `xs.map(s => s.trim())` over JSON array elements, throwing (in call
order) at the first non-string element. -/
def mapTrim : List JsonValue → Except Unit (List String)
  | [] => .ok []
  | x :: xs =>
    match jsTrimVal x with
    | .error e => .error e
    | .ok s =>
      match mapTrim xs with
      | .error e => .error e
      | .ok ts => .ok (s :: ts)

/-- `Array.isArray(parsed.summary_sentences) ?
parsed.summary_sentences.map(s => s.trim()).filter(Boolean) : []`
(line 321). -/
def initSentences (v : JsonValue) : Except Unit (List String) :=
  match getField v "summary_sentences" with
  | some (.arr xs) =>
    match mapTrim xs with
    | .error e => .error e
    | .ok ts => .ok (ts.filter (fun s => s != ""))
  | _ => .ok []

/-! ### Sentence splitter of the fuzzy variant (`splitSentences`) -/

/-- Terminal sentence punctuation `[.?!]`. -/
def isTermP (c : Char) : Bool := c = '.' || c = '?' || c = '!'

/-- `text.split(/\r?\n/)` on a character list: split at every `\n`,
consuming one immediately preceding `\r`; a lone `\r` is ordinary text.
`acc` holds the current segment reversed. -/
def splitNlAux : List Char → List Char → List (List Char)
  | acc, [] => [acc.reverse]
  | acc, '\r' :: '\n' :: cs => acc.reverse :: splitNlAux [] cs
  | acc, '\n' :: cs => acc.reverse :: splitNlAux [] cs
  | acc, c :: cs => splitNlAux (c :: acc) cs

/-- `c.split(/(?<=[.?!])\s+/)` on a character list: split at every maximal
whitespace run immediately preceded by terminal punctuation, the
punctuation staying with the preceding segment.  `acc` holds the current
segment reversed, so the lookbehind inspects `acc`'s head. -/
def splitPWAux : List Char → List Char → List (List Char)
  | acc, [] => [acc.reverse]
  | acc, c :: cs =>
    if (match acc with | p :: _ => isTermP p | [] => false) && isWs c then
      acc.reverse :: splitPWAux [] (cs.dropWhile isWs)
    else splitPWAux (c :: acc) cs
termination_by acc cs => cs.length
decreasing_by
  · exact Nat.lt_succ_of_le (List.dropWhile_suffix _).length_le
  · exact Nat.lt_succ_self _

/-- The shared splitting pipeline of both variants: newline split, trim,
drop empty chunks; then per chunk the punctuation-boundary split, trim,
drop empty units (`src/unnamed/part_000` lines 201-210,
`src/backend/server.js` lines 26-35). -/
def splitParts (text : String) : List (List Char) :=
  let chunks := ((splitNlAux [] text.data).map trimChars).filter
    (fun c => !c.isEmpty)
  chunks.flatMap (fun c =>
    ((splitPWAux [] c).map trimChars).filter (fun s => !s.isEmpty))

/-- `splitSentences(text)` from `src/unnamed/part_000` lines 198-211:
`if (!text) return []`, then the shared splitting pipeline. -/
def splitSentences (text : String) : List String :=
  if text = "" then []
  else (splitParts text).map String.mk

/-- The leading-junk class `/^[\-\–\—\s]+/` of `splitIntoSentences`
(`src/backend/server.js` line 37): hyphen, en dash, em dash or
whitespace. -/
def isDashWs (c : Char) : Bool :=
  c = '-' || c = '–' || c = '—' || isWs c

/-- `splitIntoSentences(text)` from `src/backend/server.js` lines 22-39:
the shared splitting pipeline followed by
`sentences.map(s => s.replace(/^[\-\–\—\s]+/, "").trim()).filter(Boolean)`. -/
def splitIntoSentences (text : String) : List String :=
  if text = "" then []
  else
    (((splitParts text).map (fun s => trimChars (s.dropWhile isDashWs))).filter
      (fun s => !s.isEmpty)).map String.mk

/-! ### Sentence-count reconciliation loop (fuzzy variant, lines 321-351) -/

/-- `for (let m of more) { if (sentences.length < num) sentences.push(m); }`. -/
def pushCapped (num : ℕ) (sens more : List String) : List String :=
  more.foldl (fun acc m => if acc.length < num then acc ++ [m] else acc) sens

/-- One continuation round body (lines 332-346): parse the continuation
output; if it is an array, trim its elements (throwing on non-strings),
drop empties and append capped; otherwise fall back to `splitSentences` on
the raw text and append capped. -/
def contRound (parse : String → Option JsonValue) (num : ℕ)
    (sens : List String) (contRaw : String) : Except Unit (List String) :=
  match extractJSON parse contRaw with
  | some (.arr xs) =>
    match mapTrim xs with
    | .error e => .error e
    | .ok ts => .ok (pushCapped num sens (ts.filter (fun s => s != "")))
  | _ => .ok (pushCapped num sens (splitSentences contRaw))

/-- The reconciliation loop (lines 323-348):
`while (sentences.length < num && attemptCont < 3) { ...; attemptCont++; }`.
Returns the final sentence list, the final attempt counter, and the index
of the next generation call; a thrown `TypeError` is propagated with the
call count at the throw. -/
def contLoop (gen : ℕ → String) (parse : String → Option JsonValue)
    (num : ℕ) : ℕ → List String → ℕ → Except ℕ (List String × ℕ × ℕ)
  | k, sens, att =>
    if h : sens.length < num ∧ att < 3 then
      match contRound parse num sens (gen k) with
      | .error _ => .error (k + 1)
      | .ok sens1 => contLoop gen parse num (k + 1) sens1 (att + 1)
    else .ok (sens, att, k)
termination_by k sens att => 3 - att
decreasing_by omega

/-- `if (sentences.length > num) sentences = sentences.slice(0, num);`
(line 351). -/
def sliceCap (sens : List String) (num : ℕ) : List String :=
  if sens.length > num then sens.take num else sens

/-- The shortfall note appended to the summary text (line 356). -/
def annotV1 (num len : ℕ) : String :=
  "\n\n※ 요청한 " ++ toString num ++ "문장 중 " ++ toString len
    ++ "문장만 생성되었습니다."

/-- Lines 353-357: `let finalSummary = sentences.join(" ");
if (sentences.length < num) finalSummary += ...note...`. -/
def joinAnnot (sens : List String) (num : ℕ) : String :=
  let finalSummary := String.intercalate " " sens
  if sens.length < num then finalSummary ++ annotV1 num sens.length
  else finalSummary

/-- Response for a failed structured parse (lines 301-308). -/
def parseFailResp (book : Candidate) : JsonResp :=
  { found := some true, correctedTitle := some (.str book.title),
    intro := some (.str "요약 생성 실패 (모델 응답 파싱 실패)"), summary := some "" }

/-- Response for no catalog match (lines 246-254). -/
def notFoundResp : JsonResp :=
  { found := some false, correctedTitle := some .null,
    intro := some (.str "❌ 책을 찾을 수 없습니다. 제목을 다시 확인해주세요."),
    summary := some "" }

/-- The route's `catch` response (line 367). -/
def errorResp : JsonResp :=
  { found := some false, correctedTitle := some .null,
    intro := some (.str "오류 발생"), summary := some "" }

/-- Response for `parsed.exists === false` (lines 311-318). -/
def existsFalseResp (v : JsonValue) (book : Candidate) : JsonResp :=
  { found := some false,
    correctedTitle := some (jsOr (getField v "corrected_title") (.str book.title)),
    intro := some (jsOr (getField v "intro")
      (.str "책이 존재하지 않거나 설명 부족합니다.")),
    summary := some "" }

/-- The success response (lines 359-364). -/
def okResp (v : JsonValue) (book : Candidate) (summary : String) : JsonResp :=
  { found := some true,
    correctedTitle := some (jsOr (getField v "corrected_title") (.str book.title)),
    intro := some (jsOr (getField v "intro") (.str "")),
    summary := some summary }

/-- The fuzzy variant's `POST /api/summary` handler
(`src/unnamed/part_000` lines 231-369).  `catalog` is the Google-Books
outcome consumed by `findBestBook`; `gen k` is the output text of the
`k`-th generation call; `parse` is `JSON.parse`.  Returns the response
body and the number of generation calls made. -/
def handleSummary (body : ReqBody) (catalog : Option (List VolumeItem))
    (gen : ℕ → String) (parse : String → Option JsonValue) : JsonResp × ℕ :=
  let titleRaw := jsTrim (body.title.getD "")
  if titleRaw = "" then ({ error := some "제목을 입력하세요." }, 0)
  else
    let num : ℕ := (clampNum body.num).toNat
    match findBestBook titleRaw catalog with
    | none => (notFoundResp, 0)
    | some book =>
      match initialStage gen parse with
      | (parsed, k) =>
        match parsed with
        | none => (parseFailResp book, k)
        | some v =>
          if jsTruthy v = false then (parseFailResp book, k)
          else if existsFalse v then (existsFalseResp v book, k)
          else
            match initSentences v with
            | .error _ => (errorResp, k)
            | .ok sens0 =>
              match contLoop gen parse num k sens0 0 with
              | .error ke => (errorResp, ke)
              | .ok (sens, _att, k1) =>
                (okResp v book (joinAnnot (sliceCap sens num) num), k1)

/-! ### The `server.js` variant (no catalog, `[INTRO]`/`[SUMMARY]` tags) -/

/-- Does `l` start with the literal character sequence `sep`? -/
def startsWithL (sep l : List Char) : Bool :=
  decide (l.take sep.length = sep)

/-- `text.split(sep)` for a nonempty literal separator: scan left to
right, emitting a segment at each occurrence (`acc` holds the current
segment reversed). -/
def splitSubAux (sep : List Char) : List Char → List Char → List (List Char)
  | acc, [] => [acc.reverse]
  | acc, c :: cs =>
    if startsWithL sep (c :: cs) then
      acc.reverse :: splitSubAux sep [] (cs.drop (sep.length - 1))
    else splitSubAux sep (c :: acc) cs
termination_by acc l => l.length
decreasing_by
  · simp only [List.length_drop, List.length_cons]; omega
  · simp only [List.length_cons]; omega

/-- `text.split(sep)`. -/
def splitSub (sep l : List Char) : List (List Char) :=
  splitSubAux sep [] l

/-- `text.replace(sep, "")` for a literal pattern: remove the first
occurrence only. -/
def replaceOnceAux (sep : List Char) : List Char → List Char → List Char
  | acc, [] => acc.reverse
  | acc, c :: cs =>
    if startsWithL sep (c :: cs) then acc.reverse ++ cs.drop (sep.length - 1)
    else replaceOnceAux sep (c :: acc) cs

/-- `text.includes(sep)`. -/
def containsSubL (sep : List Char) : List Char → Bool
  | [] => startsWithL sep []
  | c :: cs => startsWithL sep (c :: cs) || containsSubL sep cs

/-- The `[SUMMARY]` output tag. -/
def sumTag : List Char := "[SUMMARY]".data

/-- The `[INTRO]` output tag. -/
def introTag : List Char := "[INTRO]".data

/-- Request body of the `server.js` variant
(`{title, lang, tone, num}`, destructured with defaults). -/
structure ReqBodyV2 where
  title : Option String := none
  lang : Option String := none
  tone : Option String := none
  num : Option Int := none

/-- `num = parseInt(num) || 5; if (num > 70) num = 70; if (num < 1) num = 1;`
(`server.js` lines 58, 64-66; the destructuring default 5 re-parses to 5). -/
def clampV2 (numRaw : Option Int) : Int :=
  let n : Int :=
    match numRaw with
    | none => 5
    | some k => if k = 0 then 5 else k
  let n1 : Int := if n > 70 then 70 else n
  if n1 < 1 then 1 else n1

/-- The reconciliation loop of `server.js` lines 102-121:
`while (sentences.length < num && attempts < 3) { attempts++; ...;
sentences = sentences.concat(moreSentences).slice(0, num); }`. -/
def loopV2 (gen : ℕ → String) (num : ℕ) :
    ℕ → List String → ℕ → List String × ℕ × ℕ
  | k, sens, att =>
    if h : sens.length < num ∧ att < 3 then
      loopV2 gen num (k + 1)
        ((sens ++ splitIntoSentences (gen k)).take num) (att + 1)
    else (sens, att, k)
termination_by k sens att => 3 - att
decreasing_by omega

/-- The shortfall note of `server.js` line 129. -/
def annotV2 (num len : ℕ) : String :=
  "\n\n※ 주의: 요청한 " ++ toString num ++ "문장 중 " ++ toString len
    ++ "문장만 생성되었습니다."

/-- `server.js` lines 126-130: join with spaces, append the shortfall note
when short. -/
def joinAnnotV2 (sens : List String) (num : ℕ) : String :=
  let finalSummary := String.intercalate " " sens
  if sens.length < num then finalSummary ++ annotV2 num sens.length
  else finalSummary

/-- The `server.js` `POST /api/summary` handler (lines 53-141): no catalog
lookup; one initial generation call producing `[INTRO]`/`[SUMMARY]`
sections, an early return when the intro declares a nonexistent book, then
the reconciliation loop, final slice, and shortfall annotation.  Returns
the response body and the number of generation calls made. -/
def handleSummaryV2 (body : ReqBodyV2) (gen : ℕ → String) : JsonResp × ℕ :=
  let title := jsTrim (body.title.getD "")
  if title = "" then
    ({ intro := some (.str ""), summary := some "제목이 없습니다." }, 0)
  else
    let num : ℕ := (clampV2 body.num).toNat
    let fullOutput := gen 0
    let segs := splitSub sumTag fullOutput.data
    let introPart := String.mk (trimChars (replaceOnceAux introTag [] (segs.headD [])))
    let summaryPart := String.mk (trimChars ((segs.drop 1).headD []))
    let sentences := splitIntoSentences summaryPart
    if introPart ≠ "" ∧ containsSubL "존재하지 않는 책".data introPart.data then
      ({ intro := some (.str introPart), summary := some "" }, 1)
    else
      match loopV2 gen num 1 sentences 0 with
      | (sens, _att, k1) =>
        ({ intro := some (.str
              (if introPart = "" then "소개를 생성하지 못했습니다." else introPart)),
           summary := some (joinAnnotV2 (sliceCap sens num) num) }, k1)

/-- Invariant of the units produced by the punctuation-boundary split: no
position where terminal punctuation is immediately followed by
whitespace (such a position would have been a split boundary). -/
def noBoundary (l : List Char) : Prop :=
  List.Chain' (fun a b => ¬(isTermP a = true ∧ isWs b = true)) l

/-! ## Theorems -/

/-! ### Basic facts about `lev` -/

theorem lev_nil_left (b : List Char) : lev [] b = b.length := rfl

theorem lev_cons (x : Char) (xs b : List Char) :
    lev (x :: xs) b = levAux x (lev xs) b := rfl

theorem lev_nil_right : ∀ a : List Char, lev a [] = a.length
  | [] => rfl
  | x :: xs => by
    show levAux x (lev xs) [] = xs.length + 1
    rw [levAux, lev_nil_right xs]

/-- The cons-cons unfolding of `lev`: exactly the source's
`dp[i][j] = Math.min(dp[i-1][j] + 1, dp[i][j-1] + 1, dp[i-1][j-1] + cost)`. -/
theorem lev_cons_cons (x y : Char) (xs ys : List Char) :
    lev (x :: xs) (y :: ys) =
      min (lev xs (y :: ys) + 1)
        (min (lev (x :: xs) ys + 1)
          (lev xs ys + (if jsLower x = jsLower y then 0 else 1))) := rfl

theorem lev_self : ∀ a : List Char, lev a a = 0
  | [] => rfl
  | x :: xs => by
    rw [lev_cons_cons, if_pos rfl, lev_self xs]
    omega

theorem lev_comm_aux : ∀ (n : ℕ) (a b : List Char),
    a.length + b.length ≤ n → lev a b = lev b a
  | _, [], b, _ => by rw [lev_nil_left, lev_nil_right]
  | _, a, [], _ => by rw [lev_nil_right, lev_nil_left]
  | 0, _ :: _, _ :: _, h => by simp only [List.length_cons] at h; omega
  | n + 1, x :: xs, y :: ys, h => by
    have hn : xs.length + ys.length + 2 ≤ n + 1 := by
      simp only [List.length_cons] at h; omega
    have h1 : lev xs (y :: ys) = lev (y :: ys) xs :=
      lev_comm_aux n xs (y :: ys) (by simp only [List.length_cons]; omega)
    have h2 : lev (x :: xs) ys = lev ys (x :: xs) :=
      lev_comm_aux n (x :: xs) ys (by simp only [List.length_cons]; omega)
    have h3 : lev xs ys = lev ys xs :=
      lev_comm_aux n xs ys (by omega)
    have hc : (if jsLower x = jsLower y then (0 : ℕ) else 1)
        = (if jsLower y = jsLower x then (0 : ℕ) else 1) := by
      by_cases hxy : jsLower x = jsLower y
      · rw [if_pos hxy, if_pos hxy.symm]
      · rw [if_neg hxy, if_neg (fun hs => hxy hs.symm)]
    rw [lev_cons_cons, lev_cons_cons, h1, h2, h3, hc]
    omega

theorem lev_comm (a b : List Char) : lev a b = lev b a :=
  lev_comm_aux (a.length + b.length) a b le_rfl

/-! ### Similarity scorer facts (claims C4, C5) -/

theorem similarityScore_comm (a b : String) :
    similarityScore a b = similarityScore b a := by
  unfold similarityScore
  by_cases h : a = "" ∨ b = ""
  · rw [if_pos h, if_pos h.symm]
  · have h' : ¬(b = "" ∨ a = "") := fun hs => h hs.symm
    rw [if_neg h, if_neg h']
    have hl : levenshtein a b = levenshtein b a := by
      unfold levenshtein
      rw [if_neg h, if_neg h', lev_comm]
    simp only [hl, Nat.max_comm a.length b.length]

theorem similarityScore_self (a : String) (h : a ≠ "") :
    similarityScore a a = 1 := by
  unfold similarityScore
  rw [if_neg (by tauto)]
  have hlev : levenshtein a a = 0 := by
    unfold levenshtein
    rw [if_neg (by tauto), lev_self]
  have hlen : max a.length a.length = a.length := Nat.max_self _
  have hpos : a.length ≠ 0 := by
    intro h0
    exact h (String.ext (List.length_eq_zero.mp h0))
  simp only [hlev, hlen, if_neg hpos]
  norm_num

theorem similarityScore_empty_left (b : String) : similarityScore "" b = 0 := by
  unfold similarityScore
  rw [if_pos (Or.inl rfl)]

theorem similarityScore_empty_right (a : String) : similarityScore a "" = 0 := by
  unfold similarityScore
  rw [if_pos (Or.inr rfl)]

/-- C4 (amended): `similarityScore` is symmetric for all strings;
`similarityScore a a = 1` for every nonempty `a` (the original claim's
unrestricted identity fails at the empty string, where the falsy-argument
guard returns 0); and the score is 0 whenever exactly one argument is
empty. -/
theorem similarity_symm_self_empty :
    (∀ a b : String, similarityScore a b = similarityScore b a)
    ∧ (∀ a : String, a ≠ "" → similarityScore a a = 1)
    ∧ (∀ a b : String,
        (a = "" ∧ b ≠ "") ∨ (a ≠ "" ∧ b = "") → similarityScore a b = 0) := by
  refine ⟨similarityScore_comm, similarityScore_self, ?_⟩
  rintro a b (⟨rfl, _⟩ | ⟨_, rfl⟩)
  · exact similarityScore_empty_left b
  · exact similarityScore_empty_right a

/-- Witness for C4's amended theorem at concrete inputs. -/
theorem similarity_symm_self_empty_witness :
    similarityScore "ab" "ab" = 1 ∧ similarityScore "" "xy" = 0 :=
  ⟨similarity_symm_self_empty.2.1 "ab" (by decide),
   similarity_symm_self_empty.2.2 "" "xy" (Or.inl ⟨rfl, by decide⟩)⟩

/-- C4 counterexample: the claim asserts `similarity(a,a) = 1` for every
string `a`, but at `a = ""` the code's `if (!a || !b) return 0` guard fires
and the score is 0, not 1. -/
theorem similarity_self_empty_cex :
    similarityScore "" "" = 0 ∧ (0 : ℚ) ≠ 1 :=
  ⟨similarityScore_empty_left "", by norm_num⟩

/-- C5 (amended): when both inputs are empty the score is 0, not 1: the
falsy-argument guard `if (!a || !b) return 0` precedes the
`maxLen === 0 → 1` convention branch, which is therefore unreachable.
Either-one-empty (indeed, either argument empty at all) also yields 0. -/
theorem similarity_both_empty_zero :
    similarityScore "" "" = 0
    ∧ (∀ a : String, similarityScore a "" = 0 ∧ similarityScore "" a = 0) :=
  ⟨similarityScore_empty_left "",
   fun a => ⟨similarityScore_empty_right a, similarityScore_empty_left a⟩⟩

/-- C5 counterexample: both-empty similarity is not 1. -/
theorem similarity_both_empty_cex : ¬ (similarityScore "" "" = 1) := by
  rw [similarityScore_empty_left]
  norm_num

theorem pickTop_cons (a : Candidate × ℚ) (l : List (Candidate × ℚ)) :
    pickTop (a :: l) =
      match pickTop l with
      | none => some a
      | some m => if m.2 ≤ a.2 then some a else some m := rfl

theorem orderedInsert_head? (r : Candidate × ℚ → Candidate × ℚ → Prop)
    [DecidableRel r] (a : Candidate × ℚ) (s : List (Candidate × ℚ)) :
    (s.orderedInsert r a).head? =
      match s.head? with
      | none => some a
      | some m => if r a m then some a else some m := by
  cases s with
  | nil => rfl
  | cons b t =>
    show (if r a b then a :: b :: t else b :: List.orderedInsert r a t).head? = _
    by_cases h : r a b
    · simp only [if_pos h, List.head?_cons]
    · simp only [if_neg h, List.head?_cons]

theorem insertionSort_head?_eq_pickTop :
    ∀ l : List (Candidate × ℚ),
      (l.insertionSort (fun x y => y.2 ≤ x.2)).head? = pickTop l
  | [] => rfl
  | a :: l => by
    show ((l.insertionSort (fun x y => y.2 ≤ x.2)).orderedInsert
        (fun x y => y.2 ≤ x.2) a).head? = pickTop (a :: l)
    rw [orderedInsert_head?, insertionSort_head?_eq_pickTop l, pickTop_cons]

theorem pickTop_mem : ∀ {l : List (Candidate × ℚ)} {m : Candidate × ℚ},
    pickTop l = some m → m ∈ l := by
  intro l
  induction l with
  | nil => intro m h; cases h
  | cons a t ih =>
    intro m h
    cases ht : pickTop t with
    | none =>
      rw [pickTop_cons, ht] at h
      simp only [] at h
      cases h
      exact List.mem_cons_self a t
    | some m' =>
      rw [pickTop_cons, ht] at h
      simp only [] at h
      by_cases hle : m'.2 ≤ a.2
      · rw [if_pos hle] at h; cases h; exact List.mem_cons_self a t
      · rw [if_neg hle] at h; cases h; exact List.mem_cons_of_mem a (ih ht)

theorem pickTop_ne_none : ∀ (a : Candidate × ℚ) (l : List (Candidate × ℚ)),
    pickTop (a :: l) ≠ none := by
  intro a l h
  rw [pickTop_cons] at h
  cases ht : pickTop l with
  | none =>
    rw [ht] at h
    simp only [] at h
    exact Option.noConfusion h
  | some m' =>
    rw [ht] at h
    simp only [] at h
    by_cases hle : m'.2 ≤ a.2
    · rw [if_pos hle] at h; exact Option.noConfusion h
    · rw [if_neg hle] at h; exact Option.noConfusion h

theorem pickTop_le : ∀ {l : List (Candidate × ℚ)} {m : Candidate × ℚ},
    pickTop l = some m → ∀ x ∈ l, x.2 ≤ m.2 := by
  intro l
  induction l with
  | nil => intro m h; cases h
  | cons a t ih =>
    intro m h x hx
    cases ht : pickTop t with
    | none =>
      have hnil : t = [] := by
        cases t with
        | nil => rfl
        | cons b u => exact absurd ht (pickTop_ne_none b u)
      subst hnil
      rw [pickTop_cons, ht] at h
      simp only [Option.some.injEq] at h
      subst h
      rcases List.mem_singleton.mp hx with rfl
      exact le_rfl
    | some m' =>
      rw [pickTop_cons, ht] at h
      simp only [] at h
      by_cases hle : m'.2 ≤ a.2
      · rw [if_pos hle] at h
        simp only [Option.some.injEq] at h
        subst h
        rcases List.mem_cons.mp hx with hxa | hxt
        · rw [hxa]
        · exact (ih ht x hxt).trans hle
      · rw [if_neg hle] at h
        simp only [Option.some.injEq] at h
        subst h
        rcases List.mem_cons.mp hx with hxa | hxt
        · rw [hxa]; exact le_of_not_le hle
        · exact ih ht x hxt

theorem pickTop_first_max :
    ∀ {l : List (Candidate × ℚ)} {m : Candidate × ℚ},
      pickTop l = some m →
      ∃ pre post, l = pre ++ m :: post ∧ (∀ x ∈ pre, x.2 < m.2) := by
  intro l
  induction l with
  | nil => intro m h; cases h
  | cons a t ih =>
    intro m h
    cases ht : pickTop t with
    | none =>
      rw [pickTop_cons, ht] at h
      simp only [] at h
      cases h
      exact ⟨[], t, rfl, by intro x hx; cases hx⟩
    | some m' =>
      rw [pickTop_cons, ht] at h
      simp only [] at h
      by_cases hle : m'.2 ≤ a.2
      · rw [if_pos hle] at h; cases h
        exact ⟨[], t, rfl, by intro x hx; cases hx⟩
      · rw [if_neg hle] at h; cases h
        obtain ⟨pre, post, heq, hpre⟩ := ih ht
        refine ⟨a :: pre, post, by rw [heq]; rfl, ?_⟩
        intro x hx
        rcases List.mem_cons.mp hx with rfl | hxp
        · exact lt_of_not_le hle
        · exact hpre x hxp

theorem pickTop_eq_none : ∀ {l : List (Candidate × ℚ)},
    pickTop l = none → l = [] := by
  intro l h
  cases l with
  | nil => rfl
  | cons a t => exact absurd h (pickTop_ne_none a t)

theorem mem_scored {q : String} {items : List VolumeItem} {y : Candidate × ℚ}
    (hy : y ∈ (mkCandidates items).map (fun c => (c, scoreOf q c))) :
    y.1 ∈ mkCandidates items ∧ y.2 = scoreOf q y.1 := by
  obtain ⟨c, hc, rfl⟩ := List.mem_map.mp hy
  exact ⟨hc, rfl⟩

theorem sim_le_scoreOf (q : String) (c : Candidate) :
    similarityScore q c.title ≤ scoreOf q c :=
  le_max_left _ _

theorem scoreOf_eq_sim_of_ge {q : String} {c : Candidate}
    (h : (45 : ℚ) / 100 ≤ scoreOf q c) :
    scoreOf q c = similarityScore q c.title := by
  rcases le_max_iff.mp h with hs | h0
  · exact max_eq_left (le_trans (by norm_num) hs)
  · norm_num at h0

theorem scoreOf_lt_of_sim_lt {q : String} {c : Candidate}
    (h : similarityScore q c.title < 45 / 100) :
    scoreOf q c < 45 / 100 :=
  max_lt h (by norm_num)

/-- C1: for every catalog outcome, `findBestBook` returns a candidate only
when its title's similarity to the query is at least 0.45, and that
candidate occupies a position in the catalog-returned candidate list such
that every earlier candidate scores strictly lower (ties are won by the
first in catalog order) and every later candidate scores no higher;
`findBestBook` returns `null` exactly when the catalog call failed, or no
candidate's title reaches similarity 0.45 (which covers the empty result
set). -/
theorem findBestBook_max_first_threshold (q : String)
    (res : Option (List VolumeItem)) :
    (∀ c, findBestBook q res = some c →
      ∃ items pre post, res = some items
        ∧ mkCandidates items = pre ++ c :: post
        ∧ (45 : ℚ) / 100 ≤ similarityScore q c.title
        ∧ (∀ x ∈ pre, similarityScore q x.title < similarityScore q c.title)
        ∧ (∀ x ∈ post, similarityScore q x.title ≤ similarityScore q c.title))
    ∧ (findBestBook q res = none ↔
        res = none ∨ ∃ items, res = some items
          ∧ ∀ c ∈ mkCandidates items, similarityScore q c.title < 45 / 100) := by
  constructor
  · intro c hc
    cases res with
    | none => exact Option.noConfusion hc
    | some items =>
      simp only [findBestBook] at hc
      by_cases hne : items.isEmpty
      · rw [if_pos hne] at hc; exact Option.noConfusion hc
      · rw [if_neg hne, insertionSort_head?_eq_pickTop] at hc
        cases hp : pickTop ((mkCandidates items).map (fun c => (c, scoreOf q c))) with
        | none => rw [hp] at hc; exact Option.noConfusion hc
        | some top =>
          rw [hp] at hc
          simp only [] at hc
          by_cases hth : (45 : ℚ) / 100 ≤ top.2
          · rw [if_pos hth] at hc
            simp only [Option.some.injEq] at hc
            subst hc
            obtain ⟨pre, post, hdec, hpre⟩ := pickTop_first_max hp
            have hmem := pickTop_mem hp
            have htop2 : top.2 = scoreOf q top.1 := (mem_scored hmem).2
            have htops : scoreOf q top.1 = similarityScore q top.1.title :=
              scoreOf_eq_sim_of_ge (htop2 ▸ hth)
            refine ⟨items, pre.map Prod.fst, post.map Prod.fst, rfl, ?_, ?_, ?_, ?_⟩
            · have hfst : ((mkCandidates items).map
                  (fun c => (c, scoreOf q c))).map Prod.fst = mkCandidates items := by
                rw [List.map_map]
                exact List.map_id _
              rw [← hfst, hdec, List.map_append, List.map_cons]
            · rw [← htops, ← htop2]; exact hth
            · intro x hx
              obtain ⟨y, hy, rfl⟩ := List.mem_map.mp hx
              have hyS : y ∈ (mkCandidates items).map (fun c => (c, scoreOf q c)) := by
                rw [hdec]; exact List.mem_append_left _ hy
              have hy2 : y.2 = scoreOf q y.1 := (mem_scored hyS).2
              have : y.2 < top.2 := hpre y hy
              rw [hy2, htop2, htops] at this
              exact lt_of_le_of_lt (sim_le_scoreOf q y.1) this
            · intro x hx
              obtain ⟨y, hy, rfl⟩ := List.mem_map.mp hx
              have hyS : y ∈ (mkCandidates items).map (fun c => (c, scoreOf q c)) := by
                rw [hdec]
                exact List.mem_append_right _ (List.mem_cons_of_mem _ hy)
              have hy2 : y.2 = scoreOf q y.1 := (mem_scored hyS).2
              have : y.2 ≤ top.2 := pickTop_le hp y hyS
              rw [hy2, htop2, htops] at this
              exact le_trans (sim_le_scoreOf q y.1) this
          · rw [if_neg hth] at hc
            exact Option.noConfusion hc
  · constructor
    · intro hn
      cases res with
      | none => exact Or.inl rfl
      | some items =>
        refine Or.inr ⟨items, rfl, ?_⟩
        intro c hcmem
        by_cases hne : items.isEmpty
        · exfalso
          have : items = [] := List.isEmpty_iff.mp hne
          subst this
          simp only [mkCandidates, List.map_nil] at hcmem
          exact (List.not_mem_nil c) hcmem
        · simp only [findBestBook] at hn
          rw [if_neg hne, insertionSort_head?_eq_pickTop] at hn
          cases hp : pickTop ((mkCandidates items).map (fun c => (c, scoreOf q c))) with
          | none =>
            exfalso
            have := pickTop_eq_none hp
            rw [List.map_eq_nil_iff] at this
            rw [this] at hcmem
            exact (List.not_mem_nil c) hcmem
          | some top =>
            rw [hp] at hn
            simp only [] at hn
            by_cases hth : (45 : ℚ) / 100 ≤ top.2
            · rw [if_pos hth] at hn; exact Option.noConfusion hn
            · have hcS : (c, scoreOf q c) ∈
                  (mkCandidates items).map (fun c => (c, scoreOf q c)) :=
                List.mem_map.mpr ⟨c, hcmem, rfl⟩
              have := pickTop_le hp _ hcS
              have hlt : scoreOf q c < 45 / 100 := lt_of_le_of_lt this (not_le.mp hth)
              exact lt_of_le_of_lt (sim_le_scoreOf q c) hlt
    · rintro (rfl | ⟨items, rfl, hall⟩)
      · rfl
      · simp only [findBestBook]
        by_cases hne : items.isEmpty
        · rw [if_pos hne]
        · rw [if_neg hne, insertionSort_head?_eq_pickTop]
          cases hp : pickTop ((mkCandidates items).map (fun c => (c, scoreOf q c))) with
          | none => rfl
          | some top =>
            simp only []
            have hmem := pickTop_mem hp
            have htop2 : top.2 = scoreOf q top.1 := (mem_scored hmem).2
            have hsim : similarityScore q top.1.title < 45 / 100 :=
              hall top.1 (mem_scored hmem).1
            have : top.2 < 45 / 100 := by
              rw [htop2]; exact scoreOf_lt_of_sim_lt hsim
            rw [if_neg (not_le.mpr this)]

/-- Concrete evaluation helper: a single exact-title catalog item is
accepted by `findBestBook`. -/
theorem fbb_ab :
    findBestBook "ab" (some [{ id := "v1", title := some "ab" }]) =
      some ⟨"v1", "ab", "", ""⟩ := by
  have hj : jsTrim "ab" = "ab" := by decide
  have hs : similarityScore "ab" "ab" = 1 := similarityScore_self "ab" (by decide)
  simp only [findBestBook, List.isEmpty_cons, Bool.false_eq_true, if_false,
    mkCandidates, List.map_cons, List.map_nil, List.insertionSort,
    List.orderedInsert, List.head?_cons, Option.getD_some, Option.getD_none,
    String.intercalate, hj]
  rw [if_pos]
  show (45 : ℚ) / 100 ≤ scoreOf "ab" ⟨"v1", "ab", "", ""⟩
  rw [scoreOf, hs]
  norm_num [le_max_iff]

/-- Witness for C1 at a concrete catalog result: an exact-title match is
accepted with similarity at least 0.45. -/
theorem findBestBook_max_first_threshold_witness :
    (45 : ℚ) / 100 ≤ similarityScore "ab" "ab" := by
  obtain ⟨items, pre, post, _, _, hth, _, _⟩ :=
    (findBestBook_max_first_threshold "ab"
      (some [{ id := "v1", title := some "ab" }])).1 ⟨"v1", "ab", "", ""⟩ fbb_ab
  exact hth

/-! ### Helper lemmas: `extractJSON`, `fixLoop`, trim idempotence -/

theorem extractJSON_empty (parse : String → Option JsonValue) :
    extractJSON parse "" = none := rfl

theorem extractJSON_none (parse : String → Option JsonValue)
    (hp : ∀ s, parse s = none) (text : String) :
    extractJSON parse text = none := by
  unfold extractJSON
  by_cases ht : text = ""
  · rw [if_pos ht]
  · rw [if_neg ht, hp]
    cases h1 : text.data.findIdx? (fun c => c = '\x7b') with
    | none => rfl
    | some s =>
      cases h2 : lastIdxOf '\x7d' text.data with
      | none => rfl
      | some e =>
        simp only []
        by_cases hlt : s < e
        · rw [if_pos hlt, hp]
        · rw [if_neg hlt]

theorem fixLoop_snd_bounds (gen : ℕ → String)
    (parse : String → Option JsonValue) :
    ∀ (fuel k : ℕ) (parsed : Option JsonValue),
      k ≤ (fixLoop gen parse k parsed fuel).2
      ∧ (fixLoop gen parse k parsed fuel).2 ≤ k + fuel := by
  intro fuel
  induction fuel with
  | zero => intro k parsed; exact ⟨le_rfl, le_rfl⟩
  | succ n ih =>
    intro k parsed
    have he : fixLoop gen parse k parsed (n + 1) =
        if truthyObject parsed then (parsed, k)
        else fixLoop gen parse (k + 1) (extractJSON parse (gen k)) n := rfl
    rw [he]
    by_cases h : truthyObject parsed
    · rw [if_pos h]; exact ⟨le_rfl, by omega⟩
    · rw [if_neg h]
      obtain ⟨h1, h2⟩ := ih (k + 1) (extractJSON parse (gen k))
      exact ⟨by omega, by omega⟩

theorem fixLoop_none (gen : ℕ → String) (parse : String → Option JsonValue)
    (hp : ∀ s, parse s = none) :
    ∀ (fuel k : ℕ), fixLoop gen parse k none fuel = (none, k + fuel) := by
  intro fuel
  induction fuel with
  | zero => intro k; rfl
  | succ n ih =>
    intro k
    have he : fixLoop gen parse k none (n + 1) =
        if truthyObject none then (none, k)
        else fixLoop gen parse (k + 1) (extractJSON parse (gen k)) n := rfl
    rw [he]
    have ht : truthyObject none = false := rfl
    rw [ht]
    simp only [Bool.false_eq_true, if_false]
    rw [extractJSON_none parse hp, ih (k + 1)]
    have : k + 1 + n = k + (n + 1) := by omega
    rw [this]

theorem initialStage_calls (gen : ℕ → String)
    (parse : String → Option JsonValue) :
    1 ≤ (initialStage gen parse).2 ∧ (initialStage gen parse).2 ≤ 3 := by
  have h := fixLoop_snd_bounds gen parse 2 1 (extractJSON parse (gen 0))
  exact ⟨h.1, h.2⟩

theorem initialStage_none (gen : ℕ → String)
    (parse : String → Option JsonValue) (hp : ∀ s, parse s = none) :
    initialStage gen parse = (none, 3) := by
  unfold initialStage
  rw [extractJSON_none parse hp, fixLoop_none gen parse hp 2 1]

theorem dropWhile_of_trimmed (l : List Char) :
    ((l.dropWhile isWs).rdropWhile isWs).dropWhile isWs =
      (l.dropWhile isWs).rdropWhile isWs := by
  cases hT : (l.dropWhile isWs).rdropWhile isWs with
  | nil => rfl
  | cons x T =>
    rw [List.dropWhile_cons]
    have hpre := List.rdropWhile_prefix isWs (l.dropWhile isWs)
    rw [hT] at hpre
    obtain ⟨t, ht⟩ := hpre
    have hx : ¬ (isWs x = true) := by
      intro hx
      have hid := List.dropWhile_idempotent (l := l) (p := isWs)
      rw [← ht] at hid
      have hlen := congrArg List.length hid
      rw [List.cons_append, List.dropWhile_cons, if_pos hx] at hlen
      have hle : ((T ++ t).dropWhile isWs).length ≤ (T ++ t).length :=
        (List.dropWhile_suffix isWs).length_le
      simp only [List.length_cons] at hlen
      omega
    rw [if_neg hx]

theorem trimChars_idem (l : List Char) :
    trimChars (trimChars l) = trimChars l := by
  unfold trimChars
  rw [dropWhile_of_trimmed, List.rdropWhile_idempotent]

theorem jsTrim_idem (s : String) : jsTrim (jsTrim s) = jsTrim s := by
  unfold jsTrim
  exact congrArg String.mk (trimChars_idem s.data)

/-! ### Helper lemmas: reconciliation loop -/

theorem pushCapped_eq (num : ℕ) :
    ∀ (more sens : List String),
      pushCapped num sens more = sens ++ more.take (num - sens.length) := by
  intro more
  induction more with
  | nil => intro sens; simp [pushCapped]
  | cons m more ih =>
    intro sens
    show pushCapped num (if sens.length < num then sens ++ [m] else sens) more = _
    by_cases h : sens.length < num
    · rw [if_pos h, ih (sens ++ [m])]
      have h1 : num - sens.length = (num - (sens ++ [m]).length) + 1 := by
        simp only [List.length_append, List.length_cons, List.length_nil]
        omega
      rw [h1, List.take_succ_cons, List.append_assoc, List.singleton_append]
    · rw [if_neg h, ih sens]
      have h1 : num - sens.length = 0 := by omega
      rw [h1, List.take_zero, List.take_zero]

theorem pushCapped_length_le (num : ℕ) (sens more : List String) :
    (pushCapped num sens more).length ≤ max sens.length num := by
  rw [pushCapped_eq]
  simp only [List.length_append]
  have := List.length_take_le (num - sens.length) more
  omega

theorem pushCapped_length_le_of_lt {num : ℕ} {sens : List String}
    (more : List String) (h : sens.length < num) :
    (pushCapped num sens more).length ≤ num := by
  rw [pushCapped_eq]
  simp only [List.length_append]
  have := List.length_take_le (num - sens.length) more
  omega

theorem contRound_ok_shape {parse : String → Option JsonValue} {num : ℕ}
    {sens : List String} {raw : String} {out : List String}
    (h : contRound parse num sens raw = .ok out) :
    ∃ new, out = pushCapped num sens new := by
  unfold contRound at h
  cases hext : extractJSON parse raw with
  | none =>
    rw [hext] at h
    simp only [Except.ok.injEq] at h
    exact ⟨splitSentences raw, h.symm⟩
  | some v =>
    rw [hext] at h
    cases v with
    | arr xs =>
      simp only [] at h
      cases hm : mapTrim xs with
      | error e => rw [hm] at h; exact Except.noConfusion h
      | ok ts =>
        rw [hm] at h
        simp only [Except.ok.injEq] at h
        exact ⟨ts.filter (fun s => s != ""), h.symm⟩
    | null => simp only [Except.ok.injEq] at h; exact ⟨splitSentences raw, h.symm⟩
    | bool b => simp only [Except.ok.injEq] at h; exact ⟨splitSentences raw, h.symm⟩
    | num q => simp only [Except.ok.injEq] at h; exact ⟨splitSentences raw, h.symm⟩
    | str s => simp only [Except.ok.injEq] at h; exact ⟨splitSentences raw, h.symm⟩
    | obj fs => simp only [Except.ok.injEq] at h; exact ⟨splitSentences raw, h.symm⟩

theorem contRound_ok_length {parse : String → Option JsonValue} {num : ℕ}
    {sens : List String} {raw : String} {out : List String}
    (h : contRound parse num sens raw = .ok out) (hlt : sens.length < num) :
    out.length ≤ num := by
  obtain ⟨new, rfl⟩ := contRound_ok_shape h
  exact pushCapped_length_le_of_lt new hlt

theorem contLoop_step (gen : ℕ → String) (parse : String → Option JsonValue)
    (num k : ℕ) (sens : List String) (att : ℕ)
    (h : sens.length < num ∧ att < 3) :
    contLoop gen parse num k sens att =
      match contRound parse num sens (gen k) with
      | .error _ => .error (k + 1)
      | .ok sens1 => contLoop gen parse num (k + 1) sens1 (att + 1) := by
  rw [contLoop]
  exact dif_pos h

theorem contLoop_stop (gen : ℕ → String) (parse : String → Option JsonValue)
    (num k : ℕ) (sens : List String) (att : ℕ)
    (h : ¬(sens.length < num ∧ att < 3)) :
    contLoop gen parse num k sens att = .ok (sens, att, k) := by
  rw [contLoop]
  exact dif_neg h

theorem contLoop_ok_inv_aux (gen : ℕ → String)
    (parse : String → Option JsonValue) (num : ℕ) :
    ∀ (fuel k : ℕ) (sens : List String) (att : ℕ)
      (sens1 : List String) (att1 k1 : ℕ),
      3 - att ≤ fuel →
      contLoop gen parse num k sens att = .ok (sens1, att1, k1) →
      att ≤ att1 ∧ att1 ≤ max att 3 ∧ k1 = k + (att1 - att)
      ∧ sens1.length ≤ max sens.length num
      ∧ (att < att1 → sens1.length ≤ num) := by
  intro fuel
  induction fuel with
  | zero =>
    intro k sens att sens1 att1 k1 hf h
    have hstop : ¬(sens.length < num ∧ att < 3) := by omega
    rw [contLoop_stop gen parse num k sens att hstop] at h
    simp only [Except.ok.injEq, Prod.mk.injEq] at h
    obtain ⟨rfl, rfl, rfl⟩ := h
    refine ⟨le_rfl, le_max_left _ _, by omega, le_max_left _ _, by omega⟩
  | succ n ih =>
    intro k sens att sens1 att1 k1 hf h
    by_cases hc : sens.length < num ∧ att < 3
    · rw [contLoop_step gen parse num k sens att hc] at h
      cases hr : contRound parse num sens (gen k) with
      | error e => rw [hr] at h; exact Except.noConfusion h
      | ok sens2 =>
        rw [hr] at h
        simp only [] at h
        obtain ⟨ha1, ha2, hk, hlen, hlt⟩ :=
          ih (k + 1) sens2 (att + 1) sens1 att1 k1 (by omega) h
        have hs2 : sens2.length ≤ num := contRound_ok_length hr hc.1
        refine ⟨by omega, by omega, by omega, ?_, fun _ => ?_⟩
        · have : max sens2.length num = num := by omega
          rw [this] at hlen
          omega
        · have : max sens2.length num = num := by omega
          rw [this] at hlen
          omega
    · rw [contLoop_stop gen parse num k sens att hc] at h
      simp only [Except.ok.injEq, Prod.mk.injEq] at h
      obtain ⟨rfl, rfl, rfl⟩ := h
      refine ⟨le_rfl, le_max_left _ _, by omega, le_max_left _ _, by omega⟩

theorem contLoop_ok_inv {gen : ℕ → String}
    {parse : String → Option JsonValue} {num k : ℕ} {sens : List String}
    {att : ℕ} {sens1 : List String} {att1 k1 : ℕ}
    (h : contLoop gen parse num k sens att = .ok (sens1, att1, k1)) :
    att ≤ att1 ∧ att1 ≤ max att 3 ∧ k1 = k + (att1 - att)
    ∧ sens1.length ≤ max sens.length num
    ∧ (att < att1 → sens1.length ≤ num) :=
  contLoop_ok_inv_aux gen parse num (3 - att) k sens att sens1 att1 k1 le_rfl h

theorem contRound_stuck (num : ℕ) (sens : List String) :
    contRound (fun _ => none) num sens "" = .ok sens := by
  have h1 : extractJSON (fun _ => none) "" = none := rfl
  have h2 : splitSentences "" = [] := rfl
  unfold contRound
  rw [h1, h2]
  rfl

theorem contLoop_stuck (num : ℕ) :
    ∀ (k : ℕ) (sens : List String), sens.length < num →
      contLoop (fun _ => "") (fun _ => none) num k sens 0 =
        .ok (sens, 3, k + 3) := by
  intro k sens h
  have hr := contRound_stuck num sens
  rw [contLoop_step _ _ _ _ _ _ ⟨h, by omega⟩, hr]
  simp only []
  rw [contLoop_step _ _ _ _ _ _ ⟨h, by omega⟩, hr]
  simp only []
  rw [contLoop_step _ _ _ _ _ _ ⟨h, by omega⟩, hr]
  simp only []
  rw [contLoop_stop _ _ _ _ _ _ (by omega)]

theorem loopV2_step (gen : ℕ → String) (num k : ℕ) (sens : List String)
    (att : ℕ) (h : sens.length < num ∧ att < 3) :
    loopV2 gen num k sens att =
      loopV2 gen num (k + 1) ((sens ++ splitIntoSentences (gen k)).take num)
        (att + 1) := by
  rw [loopV2]
  exact dif_pos h

theorem loopV2_stop (gen : ℕ → String) (num k : ℕ) (sens : List String)
    (att : ℕ) (h : ¬(sens.length < num ∧ att < 3)) :
    loopV2 gen num k sens att = (sens, att, k) := by
  rw [loopV2]
  exact dif_neg h

theorem loopV2_inv_aux (gen : ℕ → String) (num : ℕ) :
    ∀ (fuel k : ℕ) (sens : List String) (att : ℕ),
      3 - att ≤ fuel →
      (att ≤ (loopV2 gen num k sens att).2.1
       ∧ (loopV2 gen num k sens att).2.1 ≤ max att 3
       ∧ (loopV2 gen num k sens att).2.2 =
           k + ((loopV2 gen num k sens att).2.1 - att)
       ∧ (loopV2 gen num k sens att).1.length ≤ max sens.length num
       ∧ (att < (loopV2 gen num k sens att).2.1 →
           (loopV2 gen num k sens att).1.length ≤ num)) := by
  intro fuel
  induction fuel with
  | zero =>
    intro k sens att hf
    have hstop : ¬(sens.length < num ∧ att < 3) := by omega
    rw [loopV2_stop gen num k sens att hstop]
    refine ⟨le_rfl, le_max_left _ _, ?_, le_max_left _ _, ?_⟩
    · show k = k + (att - att)
      omega
    · intro hlt
      exact absurd hlt (lt_irrefl att)
  | succ n ih =>
    intro k sens att hf
    by_cases hc : sens.length < num ∧ att < 3
    · rw [loopV2_step gen num k sens att hc]
      obtain ⟨ha1, ha2, hk, hlen, hlt⟩ :=
        ih (k + 1) ((sens ++ splitIntoSentences (gen k)).take num) (att + 1)
          (by omega)
      have hs2 : ((sens ++ splitIntoSentences (gen k)).take num).length ≤ num :=
        by
        have := List.length_take_le num (sens ++ splitIntoSentences (gen k))
        omega
      refine ⟨by omega, by omega, by omega, ?_, fun _ => ?_⟩
      · have : max ((sens ++ splitIntoSentences (gen k)).take num).length num
            = num := by omega
        rw [this] at hlen
        omega
      · have : max ((sens ++ splitIntoSentences (gen k)).take num).length num
            = num := by omega
        rw [this] at hlen
        omega
    · rw [loopV2_stop gen num k sens att hc]
      refine ⟨le_rfl, le_max_left _ _, ?_, le_max_left _ _, ?_⟩
      · show k = k + (att - att)
        omega
      · intro hlt
        exact absurd hlt (lt_irrefl att)

theorem loopV2_stuck (num : ℕ) :
    ∀ (k : ℕ) (sens : List String), sens.length < num →
      loopV2 (fun _ => "") num k sens 0 = (sens, 3, k + 3) := by
  intro k sens h
  have h2 : splitIntoSentences "" = [] := rfl
  have hsame : (sens ++ splitIntoSentences "").take num = sens := by
    rw [h2, List.append_nil]
    exact List.take_of_length_le (by omega)
  rw [loopV2_step _ _ _ _ _ ⟨h, by omega⟩, hsame]
  rw [loopV2_step _ _ _ _ _ ⟨h, by omega⟩, hsame]
  rw [loopV2_step _ _ _ _ _ ⟨h, by omega⟩, hsame]
  rw [loopV2_stop _ _ _ _ _ (by omega)]

theorem sliceCap_length_le (sens : List String) (num : ℕ) :
    (sliceCap sens num).length ≤ num ∨ sliceCap sens num = sens := by
  unfold sliceCap
  by_cases h : sens.length > num
  · rw [if_pos h]
    left
    have := List.length_take_le num sens
    omega
  · rw [if_neg h]
    right
    rfl

theorem sliceCap_length (sens : List String) (num : ℕ) :
    (sliceCap sens num).length ≤ num ∨
      (sliceCap sens num = sens ∧ sens.length ≤ num) := by
  unfold sliceCap
  by_cases h : sens.length > num
  · rw [if_pos h]
    left
    have := List.length_take_le num sens
    omega
  · rw [if_neg h]
    exact Or.inr ⟨rfl, by omega⟩

/-- C2: in both variants' reconciliation loops, for every requested count
and every generator/parser behaviour: the attempt counter never exceeds 3
(at most 3 continuation rounds), each executed round increments the
attempt counter and the number of generation calls equals the number of
rounds (so a round that contributes nothing still consumes budget — conjunct
3 and 5 run a generator that never yields a sentence and still terminate
with exactly 3 attempts), after any executed round the sentence list holds
at most `num` sentences, and the final slice is never longer than `num`. -/
theorem reconciliation_bounds :
    (∀ (gen : ℕ → String) (parse : String → Option JsonValue)
      (num k : ℕ) (sens : List String) (att : ℕ)
      (sens1 : List String) (att1 k1 : ℕ),
      contLoop gen parse num k sens att = .ok (sens1, att1, k1) →
        att ≤ att1 ∧ (att ≤ 3 → att1 ≤ 3) ∧ k1 = k + (att1 - att)
        ∧ sens1.length ≤ max sens.length num
        ∧ (att < att1 → sens1.length ≤ num))
    ∧ (∀ (parse : String → Option JsonValue) (num : ℕ) (sens : List String)
        (raw : String) (out : List String),
        contRound parse num sens raw = .ok out →
        sens.length < num → out.length ≤ num)
    ∧ (∀ (num k : ℕ) (sens : List String), sens.length < num →
        contLoop (fun _ => "") (fun _ => none) num k sens 0 =
          .ok (sens, 3, k + 3))
    ∧ (∀ (gen : ℕ → String) (num k : ℕ) (sens : List String) (att : ℕ),
        att ≤ (loopV2 gen num k sens att).2.1
        ∧ (att ≤ 3 → (loopV2 gen num k sens att).2.1 ≤ 3)
        ∧ (loopV2 gen num k sens att).1.length ≤ max sens.length num
        ∧ (att < (loopV2 gen num k sens att).2.1 →
            (loopV2 gen num k sens att).1.length ≤ num))
    ∧ (∀ (num k : ℕ) (sens : List String), sens.length < num →
        loopV2 (fun _ => "") num k sens 0 = (sens, 3, k + 3))
    ∧ (∀ (sens : List String) (num : ℕ), (sliceCap sens num).length ≤ num
        ∨ (sliceCap sens num = sens ∧ sens.length ≤ num)) := by
  refine ⟨?_, ?_, contLoop_stuck, ?_, loopV2_stuck, sliceCap_length⟩
  · intro gen parse num k sens att sens1 att1 k1 h
    obtain ⟨h1, h2, h3, h4, h5⟩ := contLoop_ok_inv h
    exact ⟨h1, fun ha => by omega, h3, h4, h5⟩
  · intro parse num sens raw out h hlt
    exact contRound_ok_length h hlt
  · intro gen num k sens att
    obtain ⟨h1, h2, _h3, h4, h5⟩ :=
      loopV2_inv_aux gen num (3 - att) k sens att le_rfl
    exact ⟨h1, fun ha => by omega, h4, h5⟩

/-- Witness for C2: a generator that never produces a sentence consumes
exactly the 3-round budget in both variants, returning the sentences
unchanged. -/
theorem reconciliation_bounds_witness :
    contLoop (fun _ => "") (fun _ => none) 1 0 [] 0 = .ok ([], 3, 3)
    ∧ loopV2 (fun _ => "") 1 0 [] 0 = ([], 3, 3) :=
  ⟨reconciliation_bounds.2.2.1 1 0 [] (by decide),
   reconciliation_bounds.2.2.2.2.1 1 0 [] (by decide)⟩

/-- C6: when the parsed structured result declares `exists: false`, the
handler returns immediately with an empty summary and the model-provided
(or default) explanation as the intro, making no continuation generation
call: the generation-call count of the response equals the count `k`
already consumed by the initial stage (and is at most 3). -/
theorem exists_false_authoritative
    (gen : ℕ → String) (parse : String → Option JsonValue)
    (body : ReqBody) (catalog : Option (List VolumeItem)) (book : Candidate)
    (v : JsonValue) (k : ℕ)
    (htitle : jsTrim (body.title.getD "") ≠ "")
    (hbook : findBestBook (jsTrim (body.title.getD "")) catalog = some book)
    (hstage : initialStage gen parse = (some v, k))
    (htru : jsTruthy v = true)
    (hex : existsFalse v = true) :
    handleSummary body catalog gen parse = (existsFalseResp v book, k)
    ∧ (existsFalseResp v book).summary = some ""
    ∧ (existsFalseResp v book).intro =
        some (jsOr (getField v "intro")
          (.str "책이 존재하지 않거나 설명 부족합니다."))
    ∧ k ≤ 3 := by
  refine ⟨?_, rfl, rfl, ?_⟩
  · simp only [handleSummary]
    rw [if_neg htitle, hbook]
    simp only []
    rw [hstage]
    simp only []
    rw [htru]
    rw [if_neg (by decide : ¬(true = false))]
    rw [hex, if_pos rfl]
  · have h := (initialStage_calls gen parse).2
    rw [hstage] at h
    exact h

/-- Witness for C6: a concrete run in which the first generation call
parses to an object with `exists: false`. -/
theorem exists_false_authoritative_witness :
    handleSummary { title := some "ab" }
        (some [{ id := "v1", title := some "ab" }])
        (fun _ => "g")
        (fun s => if s = "g" then
            some (JsonValue.obj [("exists", JsonValue.bool false),
              ("intro", JsonValue.str "m")])
          else none) =
      (existsFalseResp
        (JsonValue.obj [("exists", JsonValue.bool false),
          ("intro", JsonValue.str "m")])
        ⟨"v1", "ab", "", ""⟩, 1) :=
  (exists_false_authoritative (fun _ => "g")
    (fun s => if s = "g" then
        some (JsonValue.obj [("exists", JsonValue.bool false),
          ("intro", JsonValue.str "m")])
      else none)
    { title := some "ab" } (some [{ id := "v1", title := some "ab" }])
    ⟨"v1", "ab", "", ""⟩
    (JsonValue.obj [("exists", JsonValue.bool false),
      ("intro", JsonValue.str "m")]) 1
    (by decide)
    (by
      have h : jsTrim ((some "ab" : Option String).getD "") = "ab" := by decide
      rw [h]
      exact fbb_ab)
    rfl rfl rfl).1

/-- C7: the initial structured request makes at least 1 and at most 3
generation calls (1 initial plus at most 2 re-prompts), and when every
parse attempt fails (`JSON.parse` always throws), the handler returns the
structured generation-failed response after exactly 3 calls instead of
raising. -/
theorem parse_retry_bounded :
    (∀ (gen : ℕ → String) (parse : String → Option JsonValue),
      1 ≤ (initialStage gen parse).2 ∧ (initialStage gen parse).2 ≤ 3)
    ∧ (∀ (gen : ℕ → String) (parse : String → Option JsonValue)
        (body : ReqBody) (catalog : Option (List VolumeItem))
        (book : Candidate),
        jsTrim (body.title.getD "") ≠ "" →
        findBestBook (jsTrim (body.title.getD "")) catalog = some book →
        (∀ s, parse s = none) →
        handleSummary body catalog gen parse = (parseFailResp book, 3)) := by
  refine ⟨initialStage_calls, ?_⟩
  intro gen parse body catalog book htitle hbook hp
  simp only [handleSummary]
  rw [if_neg htitle, hbook]
  simp only []
  rw [initialStage_none gen parse hp]

/-- Witness for C7: with an always-failing parser the handler returns the
generation-failed response after exactly 3 generation calls. -/
theorem parse_retry_bounded_witness :
    handleSummary { title := some "ab" }
        (some [{ id := "v1", title := some "ab" }])
        (fun _ => "g") (fun _ => none) =
      (parseFailResp ⟨"v1", "ab", "", ""⟩, 3)
    ∧ 1 ≤ (initialStage (fun _ => "g") (fun _ : String => none)).2 :=
  ⟨parse_retry_bounded.2 _ _ _ _ _ (by decide) fbb_ab (fun _ => rfl),
   (parse_retry_bounded.1 _ _).1⟩

theorem mapTrim_mem : ∀ {xs : List JsonValue} {ts : List String},
    mapTrim xs = .ok ts → ∀ t ∈ ts, ∃ s0, t = jsTrim s0 := by
  intro xs
  induction xs with
  | nil =>
    intro ts h t ht
    simp only [mapTrim, Except.ok.injEq] at h
    subst h
    cases ht
  | cons x xs ih =>
    intro ts h t ht
    unfold mapTrim at h
    cases hx : jsTrimVal x with
    | error e => rw [hx] at h; exact Except.noConfusion h
    | ok s =>
      rw [hx] at h
      cases hm : mapTrim xs with
      | error e => rw [hm] at h; exact Except.noConfusion h
      | ok ts' =>
        rw [hm] at h
        simp only [Except.ok.injEq] at h
        subst h
        rcases List.mem_cons.mp ht with rfl | htt
        · cases x with
          | str s0 =>
            refine ⟨s0, ?_⟩
            injection hx with h2
            exact h2.symm
          | null => exact Except.noConfusion hx
          | bool b => exact Except.noConfusion hx
          | num q => exact Except.noConfusion hx
          | arr l => exact Except.noConfusion hx
          | obj fs => exact Except.noConfusion hx
        · exact ih hm t htt

/-- C3 (amended): the initial sentence list is trimmed — every retained
sentence is nonempty and trim-invariant — and a continuation round appends
the returned sentences only up to the missing count; but neither step
deduplicates (deduplication is only requested of the generator in the
prompt text), so duplicates can persist in the final sequence. -/
theorem reconcile_trim_no_dedup :
    (∀ (v : JsonValue) (l : List String), initSentences v = .ok l →
        ∀ s ∈ l, s ≠ "" ∧ jsTrim s = s)
    ∧ (∀ (parse : String → Option JsonValue) (num : ℕ) (sens : List String)
        (raw : String) (out : List String),
        contRound parse num sens raw = .ok out →
        ∃ new : List String, out = sens ++ new.take (num - sens.length)) := by
  constructor
  · intro v l h s hs
    unfold initSentences at h
    cases hg : getField v "summary_sentences" with
    | none =>
      rw [hg] at h
      simp only [Except.ok.injEq] at h
      subst h
      cases hs
    | some w =>
      rw [hg] at h
      cases w with
      | arr xs =>
        simp only [] at h
        cases hm : mapTrim xs with
        | error e => rw [hm] at h; exact Except.noConfusion h
        | ok ts =>
          rw [hm] at h
          simp only [Except.ok.injEq] at h
          subst h
          have hmem := List.mem_filter.mp hs
          have hne : s ≠ "" := by
            have := hmem.2
            simpa using this
          obtain ⟨s0, rfl⟩ := mapTrim_mem hm s hmem.1
          exact ⟨hne, jsTrim_idem s0⟩
      | null =>
        simp only [Except.ok.injEq] at h; subst h; cases hs
      | bool b =>
        simp only [Except.ok.injEq] at h; subst h; cases hs
      | num q =>
        simp only [Except.ok.injEq] at h; subst h; cases hs
      | str s1 =>
        simp only [Except.ok.injEq] at h; subst h; cases hs
      | obj fs =>
        simp only [Except.ok.injEq] at h; subst h; cases hs
  · intro parse num sens raw out h
    obtain ⟨new, rfl⟩ := contRound_ok_shape h
    exact ⟨new, pushCapped_eq num new sens⟩

/-- Witness for C3's amended theorem: the retained sentences of a concrete
parsed object are nonempty and trim-invariant. -/
theorem reconcile_trim_no_dedup_witness :
    "A." ≠ "" ∧ jsTrim "A." = "A." :=
  reconcile_trim_no_dedup.1
    (JsonValue.obj [("summary_sentences",
      JsonValue.arr [JsonValue.str "A.", JsonValue.str "A."])])
    ["A.", "A."] rfl "A." (by simp)

/-- C3 counterexample: a generator whose structured output repeats the
same sentence twice.  The initial sentence list is not deduplicated, the
reconciliation loop leaves it unchanged, and the response's summary joins
the duplicate sentences — refuting "the final sequence contains no
duplicate sentences" (and "the initial sentence list is deduplicated"). -/
theorem reconcile_no_dedup_cex :
    initSentences (JsonValue.obj [("summary_sentences",
        JsonValue.arr [JsonValue.str "A.", JsonValue.str "A."])]) =
      .ok ["A.", "A."]
    ∧ handleSummary { title := some "ab", num := some 2 }
        (some [{ id := "v1", title := some "ab" }])
        (fun _ => "g")
        (fun s => if s = "g" then
            some (JsonValue.obj [("summary_sentences",
              JsonValue.arr [JsonValue.str "A.", JsonValue.str "A."])])
          else none) =
      (okResp (JsonValue.obj [("summary_sentences",
          JsonValue.arr [JsonValue.str "A.", JsonValue.str "A."])])
        ⟨"v1", "ab", "", ""⟩ "A. A.", 1)
    ∧ ¬ (["A.", "A."] : List String).Nodup := by
  refine ⟨rfl, ?_, by decide⟩
  simp only [handleSummary]
  rw [if_neg (by decide)]
  rw [show findBestBook (jsTrim ((some "ab" : Option String).getD ""))
      (some [{ id := "v1", title := some "ab" }]) =
      some ⟨"v1", "ab", "", ""⟩ from (by
    have h : jsTrim ((some "ab" : Option String).getD "") = "ab" := by decide
    rw [h]
    exact fbb_ab)]
  simp only []
  rw [show initialStage (fun _ => "g")
      (fun s => if s = "g" then
          some (JsonValue.obj [("summary_sentences",
            JsonValue.arr [JsonValue.str "A.", JsonValue.str "A."])])
        else none) =
      (some (JsonValue.obj [("summary_sentences",
        JsonValue.arr [JsonValue.str "A.", JsonValue.str "A."])]), 1)
    from rfl]
  simp only []
  rw [if_neg (by decide)]
  rw [if_neg (by decide)]
  rw [show initSentences (JsonValue.obj [("summary_sentences",
      JsonValue.arr [JsonValue.str "A.", JsonValue.str "A."])]) =
      .ok ["A.", "A."] from rfl]
  simp only []
  rw [contLoop_stop _ _ _ _ _ _ (by decide)]
  simp only []
  rfl

/-- C8: in both variants, when the post-loop sentence count is still below
the requested count the returned summary text is exactly the
space-joined sentences followed by the shortfall note (which states the
requested and the delivered counts); when the count reaches the requested
count, the summary is exactly the joined sentences with nothing
appended. -/
theorem shortfall_note :
    (∀ (sens : List String) (num : ℕ), sens.length < num →
        joinAnnot sens num =
          String.intercalate " " sens ++ annotV1 num sens.length)
    ∧ (∀ (sens : List String) (num : ℕ), num ≤ sens.length →
        joinAnnot sens num = String.intercalate " " sens)
    ∧ (∀ (sens : List String) (num : ℕ), sens.length < num →
        joinAnnotV2 sens num =
          String.intercalate " " sens ++ annotV2 num sens.length)
    ∧ (∀ (sens : List String) (num : ℕ), num ≤ sens.length →
        joinAnnotV2 sens num = String.intercalate " " sens) := by
  refine ⟨?_, ?_, ?_, ?_⟩
  · intro sens num h
    unfold joinAnnot
    rw [if_pos h]
  · intro sens num h
    unfold joinAnnot
    rw [if_neg (by omega)]
  · intro sens num h
    unfold joinAnnotV2
    rw [if_pos h]
  · intro sens num h
    unfold joinAnnotV2
    rw [if_neg (by omega)]

/-- Witness for C8 at concrete inputs: one short delivery (annotated) and
one exact delivery (no annotation) per variant. -/
theorem shortfall_note_witness :
    joinAnnot ["a."] 3 = String.intercalate " " ["a."] ++ annotV1 3 1
    ∧ joinAnnot ["a.", "b."] 2 = String.intercalate " " ["a.", "b."]
    ∧ joinAnnotV2 ["a."] 3 = String.intercalate " " ["a."] ++ annotV2 3 1
    ∧ joinAnnotV2 ["a.", "b."] 2 = String.intercalate " " ["a.", "b."] :=
  ⟨shortfall_note.1 ["a."] 3 (by decide),
   shortfall_note.2.1 ["a.", "b."] 2 (by decide),
   shortfall_note.2.2.1 ["a."] 3 (by decide),
   shortfall_note.2.2.2 ["a.", "b."] 2 (by decide)⟩

/-- C10: in both variants a missing, empty, or whitespace-only title makes
the handler return immediately — the response is a constant independent of
the catalog and generator oracles, with a generation-call count of 0 — and
that response omits the `found` and `correctedTitle` keys of the
documented schema (and, in the fuzzy variant, also `summary` and `intro`:
it carries only `error`). -/
theorem empty_title_guard :
    (∀ (body : ReqBody) (catalog : Option (List VolumeItem))
        (gen : ℕ → String) (parse : String → Option JsonValue),
        jsTrim (body.title.getD "") = "" →
        handleSummary body catalog gen parse =
          ({ error := some "제목을 입력하세요." }, 0))
    ∧ (∀ (body : ReqBodyV2) (gen : ℕ → String),
        jsTrim (body.title.getD "") = "" →
        handleSummaryV2 body gen =
          ({ intro := some (.str ""), summary := some "제목이 없습니다." }, 0))
    ∧ ({ error := some "제목을 입력하세요." } : JsonResp).found = none
    ∧ ({ error := some "제목을 입력하세요." } : JsonResp).correctedTitle = none
    ∧ ({ error := some "제목을 입력하세요." } : JsonResp).summary = none
    ∧ ({ intro := some (.str ""), summary := some "제목이 없습니다." } :
        JsonResp).found = none
    ∧ ({ intro := some (.str ""), summary := some "제목이 없습니다." } :
        JsonResp).correctedTitle = none := by
  refine ⟨?_, ?_, rfl, rfl, rfl, rfl, rfl⟩
  · intro body catalog gen parse h
    simp only [handleSummary]
    rw [if_pos h]
  · intro body gen h
    simp only [handleSummaryV2]
    rw [if_pos h]

/-- Witness for C10: a whitespace-only title and a missing title. -/
theorem empty_title_guard_witness :
    handleSummary { title := some "  " } none (fun _ => "") (fun _ => none) =
      ({ error := some "제목을 입력하세요." }, 0)
    ∧ handleSummaryV2 { title := none } (fun _ => "") =
      ({ intro := some (.str ""), summary := some "제목이 없습니다." }, 0) :=
  ⟨empty_title_guard.1 { title := some "  " } none _ _ (by decide),
   empty_title_guard.2.1 { title := none } _ (by decide)⟩

/-! ### Helper lemmas: the sentence splitters (claim C9) -/

theorem splitNlAux_no_nl : ∀ (acc cs : List Char), '\n' ∉ acc →
    ∀ l ∈ splitNlAux acc cs, '\n' ∉ l := by
  intro acc cs
  induction acc, cs using splitNlAux.induct with
  | case1 acc =>
    intro hacc l hl
    rw [splitNlAux] at hl
    rcases List.mem_singleton.mp hl with rfl
    simp only [List.mem_reverse]
    exact hacc
  | case2 acc cs ih =>
    intro hacc l hl
    rw [splitNlAux] at hl
    rcases List.mem_cons.mp hl with rfl | hl2
    · simp only [List.mem_reverse]; exact hacc
    · exact ih (by simp) l hl2
  | case3 acc cs ih =>
    intro hacc l hl
    rw [splitNlAux] at hl
    rcases List.mem_cons.mp hl with rfl | hl2
    · simp only [List.mem_reverse]; exact hacc
    · exact ih (by simp) l hl2
  | case4 acc c cs h1 h2 ih =>
    intro hacc l hl
    rw [splitNlAux] at hl
    · refine ih ?_ l hl
      intro hmem
      rcases List.mem_cons.mp hmem with hc | hmem2
      · exact h2 hc.symm
      · exact hacc hmem2
    · exact h1
    · exact h2

theorem splitNlAux_id : ∀ (acc cs : List Char), '\n' ∉ cs →
    splitNlAux acc cs = [acc.reverse ++ cs] := by
  intro acc cs
  induction acc, cs using splitNlAux.induct with
  | case1 acc => intro _; rw [splitNlAux, List.append_nil]
  | case2 acc cs ih =>
    intro hcs
    exact absurd (by simp : '\n' ∈ '\r' :: '\n' :: cs) hcs
  | case3 acc cs ih =>
    intro hcs
    exact absurd (by simp : '\n' ∈ '\n' :: cs) hcs
  | case4 acc c cs h1 h2 ih =>
    intro hcs
    rw [splitNlAux]
    · rw [ih (fun hmem => hcs (List.mem_cons_of_mem c hmem))]
      simp [List.reverse_cons, List.append_assoc]
    · exact h1
    · exact h2

theorem chain'_suf {R : Char → Char → Prop} {l1 l2 : List Char}
    (hs : l1 <:+ l2) (h : List.Chain' R l2) : List.Chain' R l1 := by
  obtain ⟨t, rfl⟩ := hs
  exact (List.chain'_append.mp h).2.1

theorem chain'_pre {R : Char → Char → Prop} {l1 l2 : List Char}
    (hs : l1 <+: l2) (h : List.Chain' R l2) : List.Chain' R l1 := by
  obtain ⟨t, rfl⟩ := hs
  exact (List.chain'_append.mp h).1

theorem mem_of_mem_dropWhile {p : Char → Bool} {l : List Char} {x : Char}
    (hx : x ∈ l.dropWhile p) : x ∈ l := by
  obtain ⟨s, hs⟩ := List.dropWhile_suffix (l := l) p
  rw [← hs]
  exact List.mem_append_right _ hx

theorem mem_of_mem_trimChars {l : List Char} {x : Char}
    (hx : x ∈ trimChars l) : x ∈ l := by
  unfold trimChars at hx
  obtain ⟨t, ht⟩ := List.rdropWhile_prefix isWs (l.dropWhile isWs)
  have h1 : x ∈ l.dropWhile isWs := by
    rw [← ht]
    exact List.mem_append_left _ hx
  exact mem_of_mem_dropWhile h1

theorem noBoundary_trimChars {l : List Char} (h : noBoundary l) :
    noBoundary (trimChars l) :=
  chain'_pre (List.rdropWhile_prefix isWs (l.dropWhile isWs))
    (chain'_suf (List.dropWhile_suffix isWs) h)

theorem splitPWAux_cons (acc : List Char) (c : Char) (cs : List Char) :
    splitPWAux acc (c :: cs) =
      if (match acc with | p :: _ => isTermP p | [] => false) && isWs c then
        acc.reverse :: splitPWAux [] (cs.dropWhile isWs)
      else splitPWAux (c :: acc) cs := by
  rw [splitPWAux.eq_def]

theorem splitPWAux_inv : ∀ (acc cs : List Char), noBoundary acc.reverse →
    ∀ l ∈ splitPWAux acc cs,
      noBoundary l ∧ ∀ x ∈ l, x ∈ acc ∨ x ∈ cs := by
  intro acc cs
  induction acc, cs using splitPWAux.induct with
  | case1 acc =>
    intro hacc l hl
    rw [splitPWAux] at hl
    rcases List.mem_singleton.mp hl with rfl
    exact ⟨hacc, fun x hx => Or.inl (List.mem_reverse.mp hx)⟩
  | case2 acc c cs hg ih =>
    intro hacc l hl
    rw [splitPWAux_cons, if_pos hg] at hl
    rcases List.mem_cons.mp hl with rfl | hl2
    · exact ⟨hacc, fun x hx => Or.inl (List.mem_reverse.mp hx)⟩
    · obtain ⟨hnb, hmem⟩ := ih (by simp [noBoundary]) l hl2
      refine ⟨hnb, fun x hx => ?_⟩
      rcases hmem x hx with hx1 | hx2
      · cases hx1
      · exact Or.inr (List.mem_cons_of_mem c (mem_of_mem_dropWhile hx2))
  | case3 acc c cs hg ih =>
    intro hacc l hl
    rw [splitPWAux_cons, if_neg hg] at hl
    have hacc' : noBoundary (c :: acc).reverse := by
      rw [List.reverse_cons]
      apply List.chain'_append.mpr
      refine ⟨hacc, List.chain'_singleton c, ?_⟩
      intro x hx y hy
      rw [List.getLast?_reverse] at hx
      cases acc with
      | nil => cases hx
      | cons p t =>
        have hxp : x = p := by
          have heq : (p :: t).head? = some p := rfl
          rw [heq, Option.mem_def, Option.some.injEq] at hx
          exact hx.symm
        have hyc : y = c := by
          have heq : ([c] : List Char).head? = some c := rfl
          rw [heq, Option.mem_def, Option.some.injEq] at hy
          exact hy.symm
        subst hxp
        subst hyc
        intro hcontra
        exact hg (by
          show ((isTermP x && isWs y) = true)
          rw [Bool.and_eq_true]
          exact hcontra)
    obtain ⟨hnb, hmem⟩ := ih hacc' l hl
    refine ⟨hnb, fun x hx => ?_⟩
    rcases hmem x hx with hx1 | hx2
    · rcases List.mem_cons.mp hx1 with rfl | hx3
      · exact Or.inr (List.mem_cons_self _ _)
      · exact Or.inl hx3
    · exact Or.inr (List.mem_cons_of_mem c hx2)

theorem splitPWAux_id : ∀ (acc cs : List Char),
    noBoundary (acc.reverse ++ cs) → splitPWAux acc cs = [acc.reverse ++ cs] := by
  intro acc cs
  induction acc, cs using splitPWAux.induct with
  | case1 acc =>
    intro _
    rw [splitPWAux, List.append_nil]
  | case2 acc c cs hg ih =>
    intro hb
    exfalso
    cases acc with
    | nil => simp at hg
    | cons p t =>
      have hg' : isTermP p = true ∧ isWs c = true := by
        simpa [Bool.and_eq_true] using hg
      have hcond := (List.chain'_append.mp hb).2.2
      have hgl : ((p :: t).reverse).getLast? = some p := by
        rw [List.getLast?_reverse]
        rfl
      exact hcond p hgl c rfl hg'
  | case3 acc c cs hg ih =>
    intro hb
    have hb' : noBoundary ((c :: acc).reverse ++ cs) := by
      rw [List.reverse_cons, List.append_assoc, List.singleton_append]
      exact hb
    rw [splitPWAux_cons, if_neg hg, ih hb']
    simp [List.reverse_cons, List.append_assoc]

theorem splitParts_inv {t : String} :
    ∀ u ∈ splitParts t, u ≠ [] ∧ trimChars u = u ∧ '\n' ∉ u ∧ noBoundary u := by
  intro u hu
  unfold splitParts at hu
  obtain ⟨c, hc, hufc⟩ := List.mem_flatMap.mp hu
  obtain ⟨hcmap, hcne⟩ := List.mem_filter.mp hc
  obtain ⟨c0, hc0, rfl⟩ := List.mem_map.mp hcmap
  obtain ⟨humap, hune⟩ := List.mem_filter.mp hufc
  obtain ⟨p, hp, rfl⟩ := List.mem_map.mp humap
  have hne : trimChars p ≠ [] := by
    intro h
    rw [h] at hune
    simp at hune
  have hinv := splitPWAux_inv [] (trimChars c0) (by simp [noBoundary]) p hp
  refine ⟨hne, trimChars_idem p, ?_, noBoundary_trimChars hinv.1⟩
  intro hmem
  have h1 : '\n' ∈ p := mem_of_mem_trimChars hmem
  rcases hinv.2 _ h1 with h2 | h2
  · cases h2
  · have h3 : '\n' ∈ c0 := mem_of_mem_trimChars h2
    exact splitNlAux_no_nl [] t.data (by simp) c0 hc0 h3

theorem flatMap_eq_self {α : Type} {L : List α} {f : α → List α}
    (h : ∀ u ∈ L, f u = [u]) : L.flatMap f = L := by
  induction L with
  | nil => rfl
  | cons a L ih =>
    rw [List.flatMap_cons, h a (List.mem_cons_self a L),
      ih (fun u hu => h u (List.mem_cons_of_mem a hu)), List.singleton_append]

theorem splitParts_unit {u : List Char} (hne : u ≠ []) (htr : trimChars u = u)
    (hnl : '\n' ∉ u) (hb : noBoundary u) :
    splitParts (String.mk u) = [u] := by
  have hue : u.isEmpty = false := by
    cases u with
    | nil => exact absurd rfl hne
    | cons a l => rfl
  have hdata : (String.mk u).data = u := rfl
  unfold splitParts
  rw [hdata, splitNlAux_id [] u hnl]
  simp only [List.reverse_nil, List.nil_append, List.map_cons, List.map_nil,
    htr, List.filter_cons, hue, Bool.not_false, List.filter_nil, if_pos]
  rw [List.flatMap_cons, List.flatMap_nil, List.append_nil]
  rw [splitPWAux_id [] u (by simpa using hb)]
  simp only [List.map_cons, List.map_nil, List.reverse_nil, List.nil_append,
    htr, List.filter_cons, hue, Bool.not_false, List.filter_nil, if_pos]

theorem dropWhile_head_false {p : Char → Bool} :
    ∀ (l : List Char) (a : Char) (t : List Char),
      l.dropWhile p = a :: t → p a = false := by
  intro l
  induction l with
  | nil => intro a t h; cases h
  | cons b l ih =>
    intro a t h
    rw [List.dropWhile_cons] at h
    by_cases hb : p b = true
    · rw [if_pos hb] at h
      exact ih a t h
    · rw [if_neg hb] at h
      injection h with h1 _h2
      subst h1
      revert hb
      cases p b
      · intro _; rfl
      · intro hb; exact absurd rfl hb

theorem dropWhile_eq_self_of_head {p : Char → Bool} {l : List Char}
    (h : ∀ x, l.head? = some x → p x = false) : l.dropWhile p = l := by
  cases l with
  | nil => rfl
  | cons a l =>
    rw [List.dropWhile_cons, h a rfl]
    simp

theorem head?_of_pre {l1 l2 : List Char} (h : l1 <+: l2) (hne : l1 ≠ []) :
    l1.head? = l2.head? := by
  obtain ⟨t, rfl⟩ := h
  cases l1 with
  | nil => exact absurd rfl hne
  | cons a l => rfl

theorem isDashWs_of_isWs {c : Char} (h : isWs c = true) : isDashWs c = true := by
  unfold isDashWs
  rw [h]
  simp

theorem mk_ne_empty {l : List Char} (hne : l ≠ []) : String.mk l ≠ "" :=
  fun h => hne (congrArg String.data h)

theorem splitS_unit {l : List Char} (hne : l ≠ []) (htr : trimChars l = l)
    (hnl : '\n' ∉ l) (hb : noBoundary l) :
    splitSentences (String.mk l) = [String.mk l] := by
  unfold splitSentences
  rw [if_neg (mk_ne_empty hne), splitParts_unit hne htr hnl hb]
  rfl

theorem trimChars_head_not_dashWs {A : List Char}
    (hA : ∀ x, A.head? = some x → isDashWs x = false)
    (hne : trimChars A ≠ []) :
    ∀ x, (trimChars A).head? = some x → isDashWs x = false := by
  intro x hx
  have hdw : A.dropWhile isWs = A := by
    apply dropWhile_eq_self_of_head
    intro y hy
    have := hA y hy
    revert this
    cases hws : isWs y
    · intro _; rfl
    · intro hd
      rw [isDashWs_of_isWs hws] at hd
      exact absurd hd (by simp)
  have hpre : trimChars A <+: A := by
    unfold trimChars
    rw [hdw]
    exact List.rdropWhile_prefix isWs A
  rw [head?_of_pre hpre hne] at hx
  exact hA x hx

theorem splitIntoS_unit {l : List Char} (hne : l ≠ [])
    (htr : trimChars l = l) (hnl : '\n' ∉ l) (hb : noBoundary l)
    (hhead : ∀ x, l.head? = some x → isDashWs x = false) :
    splitIntoSentences (String.mk l) = [String.mk l] := by
  have hue : l.isEmpty = false := by
    cases l with
    | nil => exact absurd rfl hne
    | cons a t => rfl
  unfold splitIntoSentences
  rw [if_neg (mk_ne_empty hne), splitParts_unit hne htr hnl hb]
  have hd : l.dropWhile isDashWs = l := dropWhile_eq_self_of_head hhead
  simp only [List.map_cons, List.map_nil, hd, htr, List.filter_cons, hue,
    Bool.not_false, List.filter_nil, if_pos]

/-- C9: both sentence splitters are idempotent on their own output:
re-applying the splitter to each produced unit, in order, yields exactly
the same sequence of units. -/
theorem split_idempotent (t : String) :
    (splitSentences t).flatMap splitSentences = splitSentences t
    ∧ (splitIntoSentences t).flatMap splitIntoSentences =
        splitIntoSentences t := by
  constructor
  · apply flatMap_eq_self
    intro u hu
    by_cases ht : t = ""
    · subst ht; cases hu
    · rw [splitSentences, if_neg ht] at hu
      obtain ⟨p, hp, rfl⟩ := List.mem_map.mp hu
      obtain ⟨hne, htr, hnl, hb⟩ := splitParts_inv p hp
      exact splitS_unit hne htr hnl hb
  · apply flatMap_eq_self
    intro u hu
    by_cases ht : t = ""
    · subst ht; cases hu
    · rw [splitIntoSentences, if_neg ht] at hu
      obtain ⟨l, hl, rfl⟩ := List.mem_map.mp hu
      obtain ⟨hlmem, hlne⟩ := List.mem_filter.mp hl
      obtain ⟨p, hp, rfl⟩ := List.mem_map.mp hlmem
      obtain ⟨hpne, hptr, hpnl, hpb⟩ := splitParts_inv p hp
      have hne : trimChars (p.dropWhile isDashWs) ≠ [] := by
        intro h
        rw [h] at hlne
        simp at hlne
      have hA : ∀ x, (p.dropWhile isDashWs).head? = some x →
          isDashWs x = false := by
        intro x hx
        cases hdrop : p.dropWhile isDashWs with
        | nil => rw [hdrop] at hx; cases hx
        | cons a tl =>
          rw [hdrop] at hx
          have hax : a = x := by injection hx
          rw [← hax]
          exact dropWhile_head_false p a tl hdrop
      have hhead := trimChars_head_not_dashWs hA hne
      have hsuf : p.dropWhile isDashWs <:+ p := List.dropWhile_suffix isDashWs
      have hnl : '\n' ∉ trimChars (p.dropWhile isDashWs) := by
        intro hmem
        have h1 := mem_of_mem_trimChars hmem
        have h2 : '\n' ∈ p := by
          obtain ⟨s, hs⟩ := hsuf
          rw [← hs]
          exact List.mem_append_right _ h1
        exact hpnl h2
      have hb : noBoundary (trimChars (p.dropWhile isDashWs)) :=
        noBoundary_trimChars (chain'_suf hsuf hpb)
      exact splitIntoS_unit hne (trimChars_idem _) hnl hb hhead
